import Mathlib

/-!
Verification of a 3-level MLFQ scheduler simulator.

The C program keeps three FIFO run queues L0/L1/L2 (quanta 1/2/4 ticks),
dispatches the head of the highest-priority non-empty queue each tick,
decrements its work by 10 ms, and either requeues it (round robin),
demotes it one level on quantum expiry, or removes it when its work is
exhausted.  A fuel-bounded driver loop runs ticks until quiescence
(more than 10 consecutive idle ticks) or a hard cap of 100000 ticks.

All definitions below are shallow embeddings of the C source: lists model
the intrusive FIFO queues (head of list = head of queue, push appends at
the tail), `Int` models the C `int` fields (inputs small enough that
overflow does not arise), and trace output is modelled as a list of
`Event`s together with a rendering function reproducing the printf lines.
-/

namespace MLFQ

/-- One simulated tick is worth 10 ms of work (`TICK_MS` in the source). -/
def TICK_MS : Int := 10

/-- Quantum of level 0, in ticks (`Q_L0`). -/
def Q_L0 : Int := 1

/-- Quantum of level 1, in ticks (`Q_L1`). -/
def Q_L1 : Int := 2

/-- Quantum of level 2, in ticks (`Q_L2`). -/
def Q_L2 : Int := 4

/-- The fixed quantum of each level (levels 2 and above share `Q_L2`;
the program only ever uses levels 0, 1, 2). -/
def levelQuantum (l : Nat) : Int :=
  if l = 0 then Q_L0 else if l = 1 then Q_L1 else Q_L2

/-- A simulated process: mirrors `struct proc` of the source minus the
intrusive `next` pointer (queue membership is modelled by list membership). -/
structure Proc where
  pid : Nat
  name : String
  work_left : Int
  ticks_left : Int
  level : Nat
deriving DecidableEq, Repr

/-- One line of trace output, as structured data.  `run` is the
"has consumed ... in L<level>" line, `exited` the "EXIT" line, `idle`
the idle line (printed both by `schedule_one_tick` and by `main`). -/
inductive Event where
  | run (name : String) (pid : Nat) (level : Nat)
  | exited (name : String) (pid : Nat)
  | idle
deriving DecidableEq, Repr

/-- Render an event exactly as the corresponding `printf` in the source. -/
def renderEvent : Event → String
  | Event.run n pid lvl =>
      "Process " ++ n ++ " " ++ toString pid ++ " has consumed " ++
        toString TICK_MS ++ " ms in L" ++ toString lvl
  | Event.exited n pid => "Process " ++ n ++ " " ++ toString pid ++ " EXIT"
  | Event.idle =>
      "Process idle 0 has consumed " ++ toString TICK_MS ++ " ms in IDLE"

/-- The global state of the simulator: the three run queues (head of the
list is the head of the queue) and the trace emitted so far. -/
structure SimState where
  L0 : List Proc
  L1 : List Proc
  L2 : List Proc
  trace : List Event
deriving DecidableEq, Repr

/-- `q_push`: append a process at the tail of a queue (O(1) in C). -/
def q_push (q : List Proc) (p : Proc) : List Proc := q ++ [p]

/-- Book-keeping for one tick (`on_tick` in the source): decrease the
remaining work by `TICK_MS`, the remaining quantum by one, and produce
the trace line. -/
def on_tick (p : Proc) : Proc × Event :=
  let p1 : Proc := { p with work_left := p.work_left - TICK_MS,
                            ticks_left := p.ticks_left - 1 }
  (p1, Event.run p1.name p1.pid p1.level)

/-- The quantum entry guard of step 1 of `schedule_one_tick`:
`p->ticks_left = p->ticks_left ? p->ticks_left : Q;`. -/
def entryGuard (p : Proc) (q : Int) : Proc :=
  if p.ticks_left ≠ 0 then p else { p with ticks_left := q }

/-- Selection step of `schedule_one_tick`: the head of the
lowest-numbered non-empty queue, together with the queue id and the
remainder of that queue; `none` when all queues are empty. -/
def selQ (st : SimState) : Option (Nat × Proc × List Proc) :=
  match st.L0, st.L1, st.L2 with
  | p :: rest, _, _ => some (0, p, rest)
  | [], p :: rest, _ => some (1, p, rest)
  | [], [], p :: rest => some (2, p, rest)
  | [], [], [] => none

/-- Replace queue `qid` by `q` (used to write back the popped queue). -/
def setQ (st : SimState) (qid : Nat) (q : List Proc) : SimState :=
  if qid = 0 then { st with L0 := q }
  else if qid = 1 then { st with L1 := q }
  else { st with L2 := q }

/-- Read queue `qid`. -/
def getQ (st : SimState) (qid : Nat) : List Proc :=
  if qid = 0 then st.L0 else if qid = 1 then st.L1 else st.L2

/-- Steps 3-5 of `schedule_one_tick`: account for the tick, exit if the
work is exhausted, otherwise round-robin or demote depending on the
remaining quantum.  `qid` is the queue the process was popped from. -/
def dispatch (st : SimState) (p : Proc) (qid : Nat) : SimState :=
  let pr := on_tick p
  let p1 := pr.1
  let st1 : SimState := { st with trace := st.trace ++ [pr.2] }
  if p1.work_left ≤ 0 then
    { st1 with trace := st1.trace ++ [Event.exited p1.name p1.pid] }
  else
    match qid with
    | 0 =>
      if 0 < p1.ticks_left then { st1 with L0 := q_push st1.L0 p1 }
      else { st1 with L1 := q_push st1.L1 { p1 with level := 1, ticks_left := Q_L1 } }
    | 1 =>
      if 0 < p1.ticks_left then { st1 with L1 := q_push st1.L1 p1 }
      else { st1 with L2 := q_push st1.L2 { p1 with level := 2, ticks_left := Q_L2 } }
    | _ =>
      if 0 < p1.ticks_left then { st1 with L2 := q_push st1.L2 p1 }
      else { st1 with L2 := q_push st1.L2 { p1 with ticks_left := Q_L2 } }

/-- Append the idle trace line (the `else` branch of the selection in
`schedule_one_tick`, and the idle branch of `main`'s loop). -/
def emitIdle (st : SimState) : SimState :=
  { st with trace := st.trace ++ [Event.idle] }

/-- One invocation of `schedule_one_tick` from the source: pop the head
of the highest-priority non-empty queue (applying the entry guard with
that level's quantum), run it for one tick and requeue or exit it; emit
the idle line when every queue is empty. -/
def schedule_one_tick (st : SimState) : SimState :=
  match selQ st with
  | none => emitIdle st
  | some (qid, p, rest) =>
      dispatch (setQ st qid rest) (entryGuard p (levelQuantum qid)) qid

/-- All live processes, in queue order (L0 then L1 then L2). -/
def allProcs (st : SimState) : List Proc := st.L0 ++ st.L1 ++ st.L2

/-- The pid of the process a trace line is about (`none` for the idle
line, whose literal `idle 0` names no process). -/
def eventPid : Event → Option Nat
  | Event.run _ pid _ => some pid
  | Event.exited _ pid => some pid
  | Event.idle => none

/-- Number of idle lines in a trace. -/
def countIdle (tr : List Event) : Nat := tr.countP (fun e => e == Event.idle)

/-- Characters skipped between commands by `userinit_spin`
(`while(*s==' '||*s=='\t'||*s==';'||*s=='&') s++;`). -/
def isSep (c : Char) : Bool := c = ' ' || c = '\t' || c = ';' || c = '&'

/-- Characters skipped between `spin` and its number
(`while(*s==' '||*s=='\t') s++;`). -/
def isBlank (c : Char) : Bool := c = ' ' || c = '\t'

/-- The digit test of the parsing loop (`*s>='0'&&*s<='9'`). -/
def isDigitCh (c : Char) : Bool := '0' ≤ c && c ≤ '9'

/-- Value accumulated by the digit loop `ms = ms*10 + (*s-'0')`. -/
def digitsVal (s : List Char) : Nat :=
  (s.takeWhile isDigitCh).foldl (fun ms c => ms * 10 + (c.toNat - 48)) 0

/-- Skip to just past the next `;` (lines `while(*s && *s!=';') s++;
if(*s==';') s++;` of `userinit_spin`). -/
def dropToSemi (s : List Char) : List Char :=
  match s.dropWhile (fun c => c != ';') with
  | [] => []
  | _ :: r => r

/-- The parsing loop of `userinit_spin`, returning the list of work
amounts of the processes it creates, in creation order.  `fuel` bounds
the number of loop iterations; every iteration strictly shortens the
remaining input, so `s.length + 1` fuel always suffices (see
`spinGo_fuel`). -/
def spinGo (fuel : Nat) (s : List Char) : List Nat :=
  match fuel with
  | 0 => []
  | fuel + 1 =>
    let s1 := s.dropWhile isSep
    if s1 = [] then []
    else if s1.take 4 = ['s', 'p', 'i', 'n'] then
      let s2 := (s1.drop 4).dropWhile isBlank
      let ms := digitsVal s2
      let rest := dropToSemi (s2.dropWhile isDigitCh)
      if 0 < ms then ms :: spinGo fuel rest else spinGo fuel rest
    else
      spinGo fuel (dropToSemi s1)

/-- Work amounts parsed by `userinit_spin` from a command string. -/
def parseSpin (s : List Char) : List Nat := spinGo (s.length + 1) s

/-- `new_proc`: a fresh process named `name` with `ms` milliseconds of
work, starting at level 0 with level 0's quantum. -/
def new_proc (pid : Nat) (name : String) (ms : Int) : Proc :=
  { pid := pid, name := name, work_left := ms, ticks_left := Q_L0, level := 0 }

/-- Processes created by `userinit_spin` for the parsed work amounts,
with consecutive pids starting at `nextPid` (the source's `next_pid`
starts at 1), pushed onto L0 in creation order. -/
def userinit (ws : List Nat) (nextPid : Nat) : List Proc :=
  match ws with
  | [] => []
  | ms :: rest => new_proc nextPid "spin" (ms : Int) :: userinit rest (nextPid + 1)

/-- The state after `userinit_spin(cmdline)` in `main`: all created
processes queued on L0 in creation order, L1/L2 empty, no output yet. -/
def initState (cmd : String) : SimState :=
  { L0 := userinit (parseSpin cmd.data) 1, L1 := [], L2 := [], trace := [] }

/-- The `while(1)` loop of `main`, fuel-bounded.  Returns
`some (idle, ticks, st)` when the loop breaks with those final counter
values (mirroring the exact order of increments and break tests of the
source), and `none` if the fuel runs out first (which never happens for
fuel above 100002, see the termination theorem). -/
def runGo (fuel : Nat) (idle ticks : Nat) (st : SimState) :
    Option (Nat × Nat × SimState) :=
  match fuel with
  | 0 => none
  | fuel + 1 =>
    if 100000 < ticks then some (idle, ticks, st)
    else if st.L0 = [] ∧ st.L1 = [] ∧ st.L2 = [] then
      if 10 < idle + 1 then some (idle + 1, ticks + 1, st)
      else runGo fuel (idle + 1) (ticks + 1) (emitIdle st)
    else runGo fuel 0 (ticks + 1) (schedule_one_tick st)

/-- The whole program on a given command-line string. -/
def simulate (cmd : String) : Option (Nat × Nat × SimState) :=
  runGo 100002 0 0 (initState cmd)

/-- States reachable by the simulation: an initial state for some
command string, followed by scheduler ticks and idle ticks. -/
inductive Reachable : SimState → Prop where
  | init : ∀ cmd : String, Reachable (initState cmd)
  | tick : ∀ st, Reachable st → Reachable (schedule_one_tick st)
  | idleTick : ∀ st, Reachable st → Reachable (emitIdle st)

/-- Well-formedness of a process resident in the queue of level `lvl`:
its `level` field agrees with the queue it sits in, it has positive
work left, and its remaining quantum is between 1 and the level's
fixed quantum. -/
def ProcOK (lvl : Nat) (p : Proc) : Prop :=
  p.level = lvl ∧ 0 < p.work_left ∧ 1 ≤ p.ticks_left ∧ p.ticks_left ≤ levelQuantum lvl

/-- The scheduler's state invariant: every queued process is
well-formed for its queue, and pids are pairwise distinct. -/
def Inv (st : SimState) : Prop :=
  (∀ p ∈ st.L0, ProcOK 0 p) ∧ (∀ p ∈ st.L1, ProcOK 1 p) ∧
  (∀ p ∈ st.L2, ProcOK 2 p) ∧ ((allProcs st).map Proc.pid).Nodup

/-- The process state after one tick of CPU time (first component of
`on_tick`). -/
def runProc (p : Proc) : Proc :=
  { p with work_left := p.work_left - TICK_MS, ticks_left := p.ticks_left - 1 }

/-- Modelled from claim C9's words: scan the command string left to
right and record one work amount for every occurrence of the literal
token `spin` followed by whitespace and a decimal integer, skipping
zero values; scanning resumes after the digits of a match and one
character past a non-match.  (This is the claim's reading, used to
refute it; the code's actual behavior is `parseSpin`.) -/
def specOccGo (fuel : Nat) (s : List Char) : List Nat :=
  match fuel with
  | 0 => []
  | fuel + 1 =>
    match s with
    | [] => []
    | _ :: t =>
      if s.take 4 = ['s', 'p', 'i', 'n'] ∧ (s.drop 4).takeWhile isBlank ≠ [] ∧
          ((s.drop 4).dropWhile isBlank).takeWhile isDigitCh ≠ [] then
        let ms := digitsVal ((s.drop 4).dropWhile isBlank)
        let rest2 := ((s.drop 4).dropWhile isBlank).dropWhile isDigitCh
        if 0 < ms then ms :: specOccGo fuel rest2 else specOccGo fuel rest2
      else specOccGo fuel t

/-- Work amounts the claim predicts for a command string. -/
def claimOccurrences (s : List Char) : List Nat := specOccGo (s.length + 1) s

/-- Split a command string at every `;` (separators removed). -/
def splitOnSemi : List Char → List (List Char)
  | [] => [[]]
  | c :: s =>
    if c = ';' then [] :: splitOnSemi s
    else
      match splitOnSemi s with
      | [] => [[c]]
      | seg :: rest => (c :: seg) :: rest

/-- Modelled from the amended claim: the loader's effect on one
`;`-delimited segment.  After leading blanks, `&`s (and stray `;`s,
which cannot occur inside a segment) the segment must begin with the
literal `spin`; the digits following optional blanks are read as a
decimal number, and one process is created iff that number is
positive; all remaining text of the segment is discarded. -/
def segSpin (seg : List Char) : List Nat :=
  let s1 := seg.dropWhile isSep
  if s1.take 4 = ['s', 'p', 'i', 'n'] then
    let ms := digitsVal ((s1.drop 4).dropWhile isBlank)
    if 0 < ms then [ms] else []
  else []

/-! Helper lemmas about the invariant. -/

theorem entryGuard_id {p : Proc} (h : p.ticks_left ≠ 0) (q : Int) : entryGuard p q = p := by
  simp [entryGuard, h]

theorem levelQuantum_zero : levelQuantum 0 = 1 := rfl

theorem levelQuantum_one : levelQuantum 1 = 2 := rfl

theorem levelQuantum_two : levelQuantum 2 = 4 := rfl

theorem spinGo_pos : ∀ (fuel : Nat) (s : List Char) (ms : Nat), ms ∈ spinGo fuel s → 0 < ms := by
  intro fuel
  induction fuel with
  | zero => intro s ms h; simp [spinGo] at h
  | succ n ih =>
    intro s ms h
    rw [spinGo] at h
    split_ifs at h with h1 h2
    · simp at h
    · dsimp only at h
      split_ifs at h with h3
      · rcases List.mem_cons.1 h with rfl | hm
        · exact h3
        · exact ih _ _ hm
      · exact ih _ _ h
    · exact ih _ _ h

theorem parseSpin_pos (s : List Char) (ms : Nat) (h : ms ∈ parseSpin s) : 0 < ms :=
  spinGo_pos _ _ _ h

theorem userinit_mem_pid :
    ∀ (ws : List Nat) (n : Nat) (p : Proc), p ∈ userinit ws n → n ≤ p.pid := by
  intro ws
  induction ws with
  | nil => intro n p h; simp [userinit] at h
  | cons ms rest ih =>
    intro n p hp
    rcases List.mem_cons.1 hp with rfl | h
    · simp [new_proc]
    · exact Nat.le_of_succ_le (ih (n + 1) p h)

theorem userinit_nodup : ∀ (ws : List Nat) (n : Nat), ((userinit ws n).map Proc.pid).Nodup := by
  intro ws
  induction ws with
  | nil => intro n; simp [userinit]
  | cons ms rest ih =>
    intro n
    simp only [userinit, List.map_cons, List.nodup_cons]
    refine ⟨?_, ih (n + 1)⟩
    intro hmem
    rcases List.mem_map.1 hmem with ⟨q, hq, hpid⟩
    have := userinit_mem_pid rest (n + 1) q hq
    simp [new_proc] at hpid
    omega

theorem userinit_ok :
    ∀ (ws : List Nat), (∀ ms ∈ ws, 0 < ms) → ∀ (n : Nat), ∀ p ∈ userinit ws n, ProcOK 0 p := by
  intro ws
  induction ws with
  | nil => intro _ n p h; simp [userinit] at h
  | cons ms rest ih =>
    intro hpos n p hp
    rcases List.mem_cons.1 hp with rfl | h
    · have hms : 0 < ms := hpos ms (List.mem_cons_self _ _)
      refine ⟨rfl, ?_, ?_, ?_⟩
      · simp only [new_proc]; omega
      · simp only [new_proc, Q_L0]; omega
      · simp only [new_proc, Q_L0, levelQuantum_zero]; omega
    · exact ih (fun m hm => hpos m (List.mem_cons_of_mem _ hm)) (n + 1) p h

theorem initState_inv (cmd : String) : Inv (initState cmd) := by
  refine ⟨?_, ?_, ?_, ?_⟩
  · exact userinit_ok _ (fun ms hm => parseSpin_pos _ _ hm) 1
  · intro p h; simp [initState] at h
  · intro p h; simp [initState] at h
  · simp only [Inv, allProcs, initState, List.append_nil]
    exact userinit_nodup _ 1

theorem nodup_insert_mid {b : Nat} (l1 l2 l3 : List Nat)
    (h : (b :: (l1 ++ l2 ++ l3)).Nodup) : (l1 ++ (l2 ++ [b]) ++ l3).Nodup := by
  have hp : l1 ++ (l2 ++ [b]) ++ l3 = (l1 ++ l2) ++ b :: l3 := by simp
  rw [hp]
  have hperm : List.Perm (b :: ((l1 ++ l2) ++ l3)) ((l1 ++ l2) ++ b :: l3) :=
    List.perm_middle.symm
  refine hperm.nodup ?_
  simpa [List.append_assoc] using h

theorem nodup_insert_end {b : Nat} (l1 l2 : List Nat)
    (h : (b :: (l1 ++ l2)).Nodup) : (l1 ++ (l2 ++ [b])).Nodup := by
  have hp : l1 ++ (l2 ++ [b]) = (l1 ++ l2) ++ [b] := by simp
  rw [hp]
  exact (List.perm_append_singleton b (l1 ++ l2)).symm.nodup h

theorem schedule_eq_idle (tr : List Event) :
    schedule_one_tick ⟨[], [], [], tr⟩ = emitIdle ⟨[], [], [], tr⟩ := rfl

theorem schedule_eq0 (p : Proc) (rest q1 q2 : List Proc) (tr : List Event) :
    schedule_one_tick ⟨p :: rest, q1, q2, tr⟩ =
      dispatch ⟨rest, q1, q2, tr⟩ (entryGuard p Q_L0) 0 := rfl

theorem schedule_eq1 (p : Proc) (rest q2 : List Proc) (tr : List Event) :
    schedule_one_tick ⟨[], p :: rest, q2, tr⟩ =
      dispatch ⟨[], rest, q2, tr⟩ (entryGuard p Q_L1) 1 := rfl

theorem schedule_eq2 (p : Proc) (rest : List Proc) (tr : List Event) :
    schedule_one_tick ⟨[], [], p :: rest, tr⟩ =
      dispatch ⟨[], [], rest, tr⟩ (entryGuard p Q_L2) 2 := rfl

theorem inv_tick {st : SimState} (h : Inv st) : Inv (schedule_one_tick st) := by
  obtain ⟨q0, q1, q2, tr⟩ := st
  obtain ⟨h0, h1, h2, hnd⟩ := h
  simp only [allProcs, List.map_append, List.map_cons, List.map_nil, List.nil_append,
    List.cons_append, List.append_nil] at hnd
  rcases q0 with _ | ⟨p, rest⟩
  · rcases q1 with _ | ⟨p, rest⟩
    · rcases q2 with _ | ⟨p, rest⟩
      · rw [schedule_eq_idle]
        exact ⟨h0, h1, h2, by simp [allProcs, emitIdle]⟩
      · -- dispatch from L2
        obtain ⟨hlv, hw, ht1, ht2⟩ := h2 p (List.mem_cons_self p rest)
        rw [levelQuantum_two] at ht2
        rw [schedule_eq2, entryGuard_id (by omega)]
        dsimp only [dispatch, on_tick, q_push, TICK_MS, Q_L2]
        split_ifs with hx hq
        · -- exit
          refine ⟨h0, h1, fun q hq => h2 q (List.mem_cons_of_mem _ hq), ?_⟩
          simp only [allProcs, List.map_append, List.map_cons, List.map_nil,
            List.nil_append, List.cons_append, List.append_nil]
          exact List.Nodup.of_cons hnd
        · -- round robin within L2
          refine ⟨h0, h1, ?_, ?_⟩
          · intro q hqm
            rcases List.mem_append.1 hqm with hq1 | hq1
            · exact h2 q (List.mem_cons_of_mem _ hq1)
            · rcases List.mem_singleton.1 hq1 with rfl
              refine ⟨hlv, by dsimp only; omega, by dsimp only; omega, ?_⟩
              dsimp only
              rw [levelQuantum_two]
              omega
          · simp only [allProcs, List.map_append, List.map_cons, List.map_nil,
              List.nil_append, List.cons_append, List.append_nil]
            exact nodup_insert_end [] (List.map Proc.pid rest) hnd
        · -- quantum expired at L2: refresh and requeue
          refine ⟨h0, h1, ?_, ?_⟩
          · intro q hqm
            rcases List.mem_append.1 hqm with hq1 | hq1
            · exact h2 q (List.mem_cons_of_mem _ hq1)
            · rcases List.mem_singleton.1 hq1 with rfl
              refine ⟨hlv, by dsimp only; omega, by dsimp only; omega, ?_⟩
              dsimp only
              rw [levelQuantum_two]
          · simp only [allProcs, List.map_append, List.map_cons, List.map_nil,
              List.nil_append, List.cons_append, List.append_nil]
            exact nodup_insert_end [] (List.map Proc.pid rest) hnd
    · -- dispatch from L1
      obtain ⟨hlv, hw, ht1, ht2⟩ := h1 p (List.mem_cons_self p rest)
      rw [levelQuantum_one] at ht2
      rw [schedule_eq1, entryGuard_id (by omega)]
      dsimp only [dispatch, on_tick, q_push, TICK_MS, Q_L2]
      split_ifs with hx hq
      · -- exit
        refine ⟨h0, fun q hq => h1 q (List.mem_cons_of_mem _ hq), h2, ?_⟩
        simp only [allProcs, List.map_append, List.map_cons, List.map_nil,
          List.nil_append, List.cons_append, List.append_nil]
        exact List.Nodup.of_cons hnd
      · -- round robin within L1
        refine ⟨h0, ?_, h2, ?_⟩
        · intro q hqm
          rcases List.mem_append.1 hqm with hq1 | hq1
          · exact h1 q (List.mem_cons_of_mem _ hq1)
          · rcases List.mem_singleton.1 hq1 with rfl
            refine ⟨hlv, by dsimp only; omega, by dsimp only; omega, ?_⟩
            dsimp only
            rw [levelQuantum_one]
            omega
        · simp only [allProcs, List.map_append, List.map_cons, List.map_nil,
            List.nil_append, List.cons_append, List.append_nil]
          exact nodup_insert_mid [] (List.map Proc.pid rest) (List.map Proc.pid q2) hnd
      · -- demote L1 -> L2
        refine ⟨h0, fun q hq => h1 q (List.mem_cons_of_mem _ hq), ?_, ?_⟩
        · intro q hqm
          rcases List.mem_append.1 hqm with hq1 | hq1
          · exact h2 q hq1
          · rcases List.mem_singleton.1 hq1 with rfl
            refine ⟨rfl, by dsimp only; omega, by dsimp only; omega, ?_⟩
            dsimp only
            rw [levelQuantum_two]
        · simp only [allProcs, List.map_append, List.map_cons, List.map_nil,
            List.nil_append, List.cons_append, List.append_nil]
          exact nodup_insert_end (List.map Proc.pid rest) (List.map Proc.pid q2) hnd
  · -- dispatch from L0
    obtain ⟨hlv, hw, ht1, ht2⟩ := h0 p (List.mem_cons_self p rest)
    rw [levelQuantum_zero] at ht2
    rw [schedule_eq0, entryGuard_id (by omega)]
    dsimp only [dispatch, on_tick, q_push, TICK_MS, Q_L1]
    split_ifs with hx hq
    · -- exit
      refine ⟨fun q hq => h0 q (List.mem_cons_of_mem _ hq), h1, h2, ?_⟩
      simp only [allProcs, List.map_append, List.map_cons, List.map_nil,
        List.nil_append, List.cons_append, List.append_nil]
      exact List.Nodup.of_cons hnd
    · -- round robin within L0: impossible, the L0 quantum is 1
      exact absurd hq (by omega)
    · -- demote L0 -> L1
      refine ⟨fun q hq => h0 q (List.mem_cons_of_mem _ hq), ?_, h2, ?_⟩
      · intro q hqm
        rcases List.mem_append.1 hqm with hq1 | hq1
        · exact h1 q hq1
        · rcases List.mem_singleton.1 hq1 with rfl
          refine ⟨rfl, by dsimp only; omega, by dsimp only; omega, ?_⟩
          dsimp only
          rw [levelQuantum_one]
      · simp only [allProcs, List.map_append, List.map_cons, List.map_nil,
          List.nil_append, List.cons_append, List.append_nil]
        exact nodup_insert_mid (List.map Proc.pid rest) (List.map Proc.pid q1)
          (List.map Proc.pid q2) hnd

theorem reachable_inv {st : SimState} (h : Reachable st) : Inv st := by
  induction h with
  | init cmd => exact initState_inv cmd
  | tick st _ ih => exact inv_tick ih
  | idleTick st _ ih => exact ih

theorem on_tick_fst (p : Proc) : (on_tick p).1 = runProc p := rfl

theorem selQ_spec {st : SimState} {qid : Nat} {p : Proc} {rest : List Proc}
    (h : selQ st = some (qid, p, rest)) :
    (qid = 0 ∧ st.L0 = p :: rest) ∨
    (qid = 1 ∧ st.L0 = [] ∧ st.L1 = p :: rest) ∨
    (qid = 2 ∧ st.L0 = [] ∧ st.L1 = [] ∧ st.L2 = p :: rest) := by
  obtain ⟨q0, q1, q2, tr⟩ := st
  rcases q0 with _ | ⟨a, as⟩
  · rcases q1 with _ | ⟨a, as⟩
    · rcases q2 with _ | ⟨a, as⟩
      · simp [selQ] at h
      · simp only [selQ, Option.some.injEq, Prod.mk.injEq] at h
        obtain ⟨hq, hp, hr⟩ := h
        exact Or.inr (Or.inr ⟨hq.symm, rfl, rfl, by rw [hp, hr]⟩)
    · simp only [selQ, Option.some.injEq, Prod.mk.injEq] at h
      obtain ⟨hq, hp, hr⟩ := h
      exact Or.inr (Or.inl ⟨hq.symm, rfl, by rw [hp, hr]⟩)
  · simp only [selQ, Option.some.injEq, Prod.mk.injEq] at h
    obtain ⟨hq, hp, hr⟩ := h
    exact Or.inl ⟨hq.symm, by rw [hp, hr]⟩

theorem step_idle {st : SimState} (h : selQ st = none) :
    schedule_one_tick st = emitIdle st := by
  rw [schedule_one_tick, h]

theorem selQ_none {st : SimState}
    (h : st.L0 = [] ∧ st.L1 = [] ∧ st.L2 = []) : selQ st = none := by
  obtain ⟨q0, q1, q2, tr⟩ := st
  obtain ⟨h0, h1, h2⟩ := h
  dsimp only at h0 h1 h2
  subst h0; subst h1; subst h2
  rfl

theorem step_exit {st : SimState} {qid : Nat} {p : Proc} {rest : List Proc}
    (hsel : selQ st = some (qid, p, rest)) (hne : p.ticks_left ≠ 0)
    (hw : p.work_left - TICK_MS ≤ 0) :
    schedule_one_tick st =
      { setQ st qid rest with
        trace := st.trace ++
          [Event.run p.name p.pid p.level, Event.exited p.name p.pid] } := by
  obtain ⟨q0, q1, q2, tr⟩ := st
  rcases selQ_spec hsel with ⟨rfl, h0⟩ | ⟨rfl, h0, h1⟩ | ⟨rfl, h0, h1, h2⟩
  · dsimp only at h0; subst h0
    rw [schedule_eq0, entryGuard_id hne]
    dsimp only [dispatch, on_tick, setQ]
    rw [if_pos hw]
    simp
  · dsimp only at h0 h1; subst h0; subst h1
    rw [schedule_eq1, entryGuard_id hne]
    dsimp only [dispatch, on_tick, setQ]
    rw [if_pos hw]
    simp
  · dsimp only at h0 h1 h2; subst h0; subst h1; subst h2
    rw [schedule_eq2, entryGuard_id hne]
    dsimp only [dispatch, on_tick, setQ]
    rw [if_pos hw]
    simp

theorem step_rr {st : SimState} {qid : Nat} {p : Proc} {rest : List Proc}
    (hsel : selQ st = some (qid, p, rest)) (hne : p.ticks_left ≠ 0)
    (hw : ¬ p.work_left - TICK_MS ≤ 0) (ht : 0 < p.ticks_left - 1) :
    schedule_one_tick st =
      { setQ st qid (rest ++ [runProc p]) with
        trace := st.trace ++ [Event.run p.name p.pid p.level] } := by
  obtain ⟨q0, q1, q2, tr⟩ := st
  rcases selQ_spec hsel with ⟨rfl, h0⟩ | ⟨rfl, h0, h1⟩ | ⟨rfl, h0, h1, h2⟩
  · dsimp only at h0; subst h0
    rw [schedule_eq0, entryGuard_id hne]
    dsimp only [dispatch, on_tick, setQ, q_push]
    rw [if_neg hw, if_pos ht]
    rfl
  · dsimp only at h0 h1; subst h0; subst h1
    rw [schedule_eq1, entryGuard_id hne]
    dsimp only [dispatch, on_tick, setQ, q_push]
    rw [if_neg hw, if_pos ht]
    rfl
  · dsimp only at h0 h1 h2; subst h0; subst h1; subst h2
    rw [schedule_eq2, entryGuard_id hne]
    dsimp only [dispatch, on_tick, setQ, q_push]
    rw [if_neg hw, if_pos ht]
    rfl

theorem step_demote {st : SimState} {qid : Nat} {p : Proc} {rest : List Proc}
    (hsel : selQ st = some (qid, p, rest)) (hne : p.ticks_left ≠ 0)
    (hw : ¬ p.work_left - TICK_MS ≤ 0) (ht : ¬ 0 < p.ticks_left - 1)
    (hq : qid ≠ 2) :
    schedule_one_tick st =
      { setQ (setQ st qid rest) (qid + 1)
          (getQ st (qid + 1) ++
            [{ runProc p with level := qid + 1,
                              ticks_left := levelQuantum (qid + 1) }]) with
        trace := st.trace ++ [Event.run p.name p.pid p.level] } := by
  obtain ⟨q0, q1, q2, tr⟩ := st
  rcases selQ_spec hsel with ⟨rfl, h0⟩ | ⟨rfl, h0, h1⟩ | ⟨rfl, h0, h1, h2⟩
  · dsimp only at h0; subst h0
    rw [schedule_eq0, entryGuard_id hne]
    dsimp only [dispatch, on_tick, setQ, getQ, q_push]
    rw [if_neg hw, if_neg ht]
    rfl
  · dsimp only at h0 h1; subst h0; subst h1
    rw [schedule_eq1, entryGuard_id hne]
    dsimp only [dispatch, on_tick, setQ, getQ, q_push]
    rw [if_neg hw, if_neg ht]
    rfl
  · exact absurd rfl hq

theorem step_refresh {st : SimState} {p : Proc} {rest : List Proc}
    (hsel : selQ st = some (2, p, rest)) (hne : p.ticks_left ≠ 0)
    (hw : ¬ p.work_left - TICK_MS ≤ 0) (ht : ¬ 0 < p.ticks_left - 1) :
    schedule_one_tick st =
      { st with L2 := rest ++ [{ runProc p with ticks_left := Q_L2 }],
                trace := st.trace ++ [Event.run p.name p.pid p.level] } := by
  obtain ⟨q0, q1, q2, tr⟩ := st
  rcases selQ_spec hsel with ⟨h, h0⟩ | ⟨h, h0, h1⟩ | ⟨_, h0, h1, h2⟩
  · exact absurd h (by omega)
  · exact absurd h (by omega)
  · dsimp only at h0 h1 h2; subst h0; subst h1; subst h2
    rw [schedule_eq2, entryGuard_id hne]
    dsimp only [dispatch, on_tick, q_push]
    rw [if_neg hw, if_neg ht]
    rfl

theorem entryGuard_fields (p : Proc) (q : Int) :
    (entryGuard p q).name = p.name ∧ (entryGuard p q).pid = p.pid ∧
      (entryGuard p q).level = p.level := by
  unfold entryGuard
  split_ifs <;> exact ⟨rfl, rfl, rfl⟩

theorem dispatch_trace (st : SimState) (p : Proc) (qid : Nat) :
    ∃ t, (dispatch st p qid).trace =
      st.trace ++ Event.run p.name p.pid p.level :: t := by
  rcases qid with _ | _ | q
  all_goals dsimp only [dispatch, on_tick]
  all_goals split_ifs
  all_goals first
    | exact ⟨[], rfl⟩
    | exact ⟨[Event.exited p.name p.pid], by simp⟩

/-! Claim theorems. -/

/-- C1: on every tick with at least one non-empty run queue, the
dispatched process — the one named by the run trace line emitted on that
tick — is the head of the lowest-numbered non-empty queue: level 0
whenever L0 is non-empty, level 1 only when L0 is empty, level 2 only
when L0 and L1 are both empty. -/
theorem C1_priority_dispatch (st : SimState)
    (h : ¬ (st.L0 = [] ∧ st.L1 = [] ∧ st.L2 = [])) :
    ∃ p t, (schedule_one_tick st).trace =
        st.trace ++ Event.run p.name p.pid p.level :: t ∧
      (st.L0 ≠ [] → st.L0.head? = some p) ∧
      (st.L0 = [] → st.L1 ≠ [] → st.L1.head? = some p) ∧
      (st.L0 = [] → st.L1 = [] → st.L2.head? = some p) := by
  obtain ⟨q0, q1, q2, tr⟩ := st
  rcases q0 with _ | ⟨p, rest⟩
  · rcases q1 with _ | ⟨p, rest⟩
    · rcases q2 with _ | ⟨p, rest⟩
      · exact absurd ⟨rfl, rfl, rfl⟩ h
      · rw [schedule_eq2]
        obtain ⟨t, ht⟩ := dispatch_trace ⟨[], [], rest, tr⟩ (entryGuard p Q_L2) 2
        obtain ⟨hn, hp, hl⟩ := entryGuard_fields p Q_L2
        refine ⟨p, t, ?_, ?_, ?_, ?_⟩
        · rw [ht, hn, hp, hl]
        · intro hc; exact absurd rfl hc
        · intro _ hc; exact absurd rfl hc
        · intro _ _; rfl
    · rw [schedule_eq1]
      obtain ⟨t, ht⟩ := dispatch_trace ⟨[], rest, q2, tr⟩ (entryGuard p Q_L1) 1
      obtain ⟨hn, hp, hl⟩ := entryGuard_fields p Q_L1
      refine ⟨p, t, ?_, ?_, ?_, ?_⟩
      · rw [ht, hn, hp, hl]
      · intro hc; exact absurd rfl hc
      · intro _ _; rfl
      · intro _ hc; exact absurd hc (List.cons_ne_nil p rest)
  · rw [schedule_eq0]
    obtain ⟨t, ht⟩ := dispatch_trace ⟨rest, q1, q2, tr⟩ (entryGuard p Q_L0) 0
    obtain ⟨hn, hp, hl⟩ := entryGuard_fields p Q_L0
    refine ⟨p, t, ?_, ?_, ?_, ?_⟩
    · rw [ht, hn, hp, hl]
    · intro _; rfl
    · intro hc; exact absurd hc (List.cons_ne_nil p rest)
    · intro hc; exact absurd hc (List.cons_ne_nil p rest)

/-- C1 witness: a concrete dispatch from a reachable non-idle state. -/
theorem C1_priority_dispatch_witness :
    ∃ p t, (schedule_one_tick (initState "spin 30")).trace =
        (initState "spin 30").trace ++ Event.run p.name p.pid p.level :: t ∧
      ((initState "spin 30").L0 ≠ [] → (initState "spin 30").L0.head? = some p) ∧
      ((initState "spin 30").L0 = [] → (initState "spin 30").L1 ≠ [] →
        (initState "spin 30").L1.head? = some p) ∧
      ((initState "spin 30").L0 = [] → (initState "spin 30").L1 = [] →
        (initState "spin 30").L2.head? = some p) :=
  C1_priority_dispatch (initState "spin 30") (by decide)

/-- C5: at all times (in every reachable simulator state) every live
process has 0 ≤ quantum_remaining ≤ quantum(level). -/
theorem C5_quantum_bound {st : SimState} (h : Reachable st) :
    ∀ p ∈ allProcs st, 0 ≤ p.ticks_left ∧ p.ticks_left ≤ levelQuantum p.level := by
  obtain ⟨h0, h1, h2, _⟩ := reachable_inv h
  intro p hp
  simp only [allProcs] at hp
  rcases List.mem_append.1 hp with hp01 | hp2
  · rcases List.mem_append.1 hp01 with hp0 | hp1
    · obtain ⟨hl, _, ht1, ht2⟩ := h0 p hp0
      rw [hl]
      exact ⟨by omega, ht2⟩
    · obtain ⟨hl, _, ht1, ht2⟩ := h1 p hp1
      rw [hl]
      exact ⟨by omega, ht2⟩
  · obtain ⟨hl, _, ht1, ht2⟩ := h2 p hp2
    rw [hl]
    exact ⟨by omega, ht2⟩

/-- C5 witness: the bound holds for the single process of a concrete
initial state. -/
theorem C5_quantum_bound_witness :
    0 ≤ (new_proc 1 "spin" 30).ticks_left ∧
      (new_proc 1 "spin" 30).ticks_left ≤ levelQuantum (new_proc 1 "spin" 30).level :=
  C5_quantum_bound (Reachable.init "spin 30") (new_proc 1 "spin" 30) (by decide)

/-- C6: the quantum-entry guard is never triggered in any reachable
state: every process selected by the dispatch step has
quantum_remaining > 0, so the guard reset leaves it unchanged. -/
theorem C6_guard_unreachable {st : SimState} (h : Reachable st) {qid : Nat}
    {p : Proc} {rest : List Proc} (hsel : selQ st = some (qid, p, rest)) :
    0 < p.ticks_left ∧ entryGuard p (levelQuantum qid) = p := by
  obtain ⟨h0, h1, h2, _⟩ := reachable_inv h
  have hp : 1 ≤ p.ticks_left := by
    rcases selQ_spec hsel with ⟨_, hq0⟩ | ⟨_, hq0, hq1⟩ | ⟨_, hq0, hq1, hq2⟩
    · exact (h0 p (by rw [hq0]; exact List.mem_cons_self p rest)).2.2.1
    · exact (h1 p (by rw [hq1]; exact List.mem_cons_self p rest)).2.2.1
    · exact (h2 p (by rw [hq2]; exact List.mem_cons_self p rest)).2.2.1
  exact ⟨by omega, entryGuard_id (by omega) _⟩

/-- C6 witness: the guard is the identity on the selected process of a
concrete reachable state. -/
theorem C6_guard_unreachable_witness :
    0 < (new_proc 1 "spin" 30).ticks_left ∧
      entryGuard (new_proc 1 "spin" 30) (levelQuantum 0) = new_proc 1 "spin" 30 :=
  @C6_guard_unreachable (initState "spin 30") (Reachable.init "spin 30") 0
    (new_proc 1 "spin" 30) [] (by decide)

/-- C10: in every reachable state, every process resident in a run
queue has strictly positive remaining work and quantum_remaining at
least 1. -/
theorem C10_queued_positive {st : SimState} (h : Reachable st) :
    ∀ p ∈ allProcs st, 0 < p.work_left ∧ 1 ≤ p.ticks_left := by
  obtain ⟨h0, h1, h2, _⟩ := reachable_inv h
  intro p hp
  simp only [allProcs] at hp
  rcases List.mem_append.1 hp with hp01 | hp2
  · rcases List.mem_append.1 hp01 with hp0 | hp1
    · obtain ⟨_, hw, ht1, _⟩ := h0 p hp0
      exact ⟨hw, ht1⟩
    · obtain ⟨_, hw, ht1, _⟩ := h1 p hp1
      exact ⟨hw, ht1⟩
  · obtain ⟨_, hw, ht1, _⟩ := h2 p hp2
    exact ⟨hw, ht1⟩

/-- C10 witness: positivity for the process of a concrete initial state. -/
theorem C10_queued_positive_witness :
    0 < (new_proc 1 "spin" 30).work_left ∧ 1 ≤ (new_proc 1 "spin" 30).ticks_left :=
  C10_queued_positive (Reachable.init "spin 30") (new_proc 1 "spin" 30) (by decide)

/-- C4: over one scheduler tick, the level of a process never
decreases, and a process at the terminal level 2 stays at level 2;
lifetime monotonicity follows by chaining ticks.  The process is
identified by its pid, which is unique in every reachable state. -/
theorem C4_monotone_level {st : SimState} (h : Reachable st) {p q : Proc}
    (hp : p ∈ allProcs st) (hq : q ∈ allProcs (schedule_one_tick st))
    (hpq : q.pid = p.pid) :
    p.level ≤ q.level ∧ (p.level = 2 → q.level = 2) := by
  obtain ⟨h0, h1, h2, hnd⟩ := reachable_inv h
  have inj := List.inj_on_of_nodup_map hnd
  obtain ⟨q0, q1, q2, tr⟩ := st
  rcases q0 with _ | ⟨a, rest⟩
  · rcases q1 with _ | ⟨a, rest⟩
    · rcases q2 with _ | ⟨a, rest⟩
      · -- idle tick: state unchanged apart from trace
        rw [schedule_eq_idle] at hq
        have hqp : q = p := inj hq hp hpq
        subst hqp
        exact ⟨Nat.le_refl _, fun h2 => h2⟩
      · -- dispatch from L2
        obtain ⟨hlv, hw2, ht1, ht2⟩ := h2 a (List.mem_cons_self a rest)
        rw [schedule_eq2, entryGuard_id (by omega)] at hq
        dsimp only [dispatch, on_tick, q_push, TICK_MS, Q_L2] at hq
        split_ifs at hq with hx hq2
        · -- exit
          have hqold : q ∈ allProcs ⟨[], [], a :: rest, tr⟩ := by
            simp only [allProcs, List.mem_append, List.mem_cons] at hq ⊢
            tauto
          have hqp : q = p := inj hqold hp hpq
          subst hqp
          exact ⟨Nat.le_refl _, fun h2 => h2⟩
        · -- round robin within L2
          simp only [allProcs, List.nil_append, List.mem_append,
            List.mem_singleton] at hq
          rcases hq with hq | hq
          · have hqp : q = p :=
              inj (by simp [allProcs, List.mem_cons_of_mem, hq]) hp hpq
            subst hqp
            exact ⟨Nat.le_refl _, fun h2 => h2⟩
          · subst hq
            have hpa : p = a :=
              inj hp (by simp [allProcs]) (by exact hpq.symm)
            subst hpa
            exact ⟨Nat.le_refl _, fun h2 => h2⟩
        · -- refresh at L2
          simp only [allProcs, List.nil_append, List.mem_append,
            List.mem_singleton] at hq
          rcases hq with hq | hq
          · have hqp : q = p :=
              inj (by simp [allProcs, List.mem_cons_of_mem, hq]) hp hpq
            subst hqp
            exact ⟨Nat.le_refl _, fun h2 => h2⟩
          · subst hq
            have hpa : p = a :=
              inj hp (by simp [allProcs]) (by exact hpq.symm)
            subst hpa
            exact ⟨Nat.le_refl _, fun h2 => h2⟩
    · -- dispatch from L1
      obtain ⟨hlv, hw2, ht1, ht2⟩ := h1 a (List.mem_cons_self a rest)
      rw [schedule_eq1, entryGuard_id (by omega)] at hq
      dsimp only [dispatch, on_tick, q_push, TICK_MS, Q_L2] at hq
      split_ifs at hq with hx hq2
      · -- exit
        have hqold : q ∈ allProcs ⟨[], a :: rest, q2, tr⟩ := by
          simp only [allProcs, List.mem_append, List.mem_cons] at hq ⊢
          tauto
        have hqp : q = p := inj hqold hp hpq
        subst hqp
        exact ⟨Nat.le_refl _, fun h2 => h2⟩
      · -- round robin within L1
        simp only [allProcs, List.nil_append, List.mem_append,
          List.mem_singleton] at hq
        rcases hq with (hq | hq) | hq
        · have hqp : q = p :=
            inj (by simp [allProcs, List.mem_cons_of_mem, hq]) hp hpq
          subst hqp
          exact ⟨Nat.le_refl _, fun h2 => h2⟩
        · subst hq
          have hpa : p = a :=
            inj hp (by simp [allProcs]) (by exact hpq.symm)
          subst hpa
          exact ⟨Nat.le_refl _, fun h2 => h2⟩
        · have hqp : q = p :=
            inj (by simp [allProcs, hq]) hp hpq
          subst hqp
          exact ⟨Nat.le_refl _, fun h2 => h2⟩
      · -- demote L1 -> L2
        simp only [allProcs, List.nil_append, List.mem_append,
          List.mem_singleton] at hq
        rcases hq with hq | (hq | hq)
        · have hqp : q = p :=
            inj (by simp [allProcs, List.mem_cons_of_mem, hq]) hp hpq
          subst hqp
          exact ⟨Nat.le_refl _, fun h2 => h2⟩
        · have hqp : q = p :=
            inj (by simp [allProcs, hq]) hp hpq
          subst hqp
          exact ⟨Nat.le_refl _, fun h2 => h2⟩
        · subst hq
          have hpa : p = a :=
            inj hp (by simp [allProcs]) (by exact hpq.symm)
          subst hpa
          rw [hlv]
          refine ⟨?_, ?_⟩
          · dsimp only
            omega
          · exact fun h2 => absurd h2 (by decide)
  · -- dispatch from L0
    obtain ⟨hlv, hw2, ht1, ht2⟩ := h0 a (List.mem_cons_self a rest)
    rw [schedule_eq0, entryGuard_id (by omega)] at hq
    dsimp only [dispatch, on_tick, q_push, TICK_MS, Q_L1] at hq
    split_ifs at hq with hx hq2
    · -- exit
      have hqold : q ∈ allProcs ⟨a :: rest, q1, q2, tr⟩ := by
        simp only [allProcs, List.mem_append, List.mem_cons] at hq ⊢
        tauto
      have hqp : q = p := inj hqold hp hpq
      subst hqp
      exact ⟨Nat.le_refl _, fun h2 => h2⟩
    · -- round robin within L0
      simp only [allProcs, List.mem_append, List.mem_singleton] at hq
      rcases hq with ((hq | hq) | hq) | hq
      · have hqp : q = p :=
          inj (by simp [allProcs, List.mem_cons_of_mem, hq]) hp hpq
        subst hqp
        exact ⟨Nat.le_refl _, fun h2 => h2⟩
      · subst hq
        have hpa : p = a :=
          inj hp (by simp [allProcs]) (by exact hpq.symm)
        subst hpa
        exact ⟨Nat.le_refl _, fun h2 => h2⟩
      · have hqp : q = p :=
          inj (by simp [allProcs, hq]) hp hpq
        subst hqp
        exact ⟨Nat.le_refl _, fun h2 => h2⟩
      · have hqp : q = p :=
          inj (by simp [allProcs, hq]) hp hpq
        subst hqp
        exact ⟨Nat.le_refl _, fun h2 => h2⟩
    · -- demote L0 -> L1
      simp only [allProcs, List.mem_append, List.mem_singleton] at hq
      rcases hq with (hq | (hq | hq)) | hq
      · have hqp : q = p :=
          inj (by simp [allProcs, List.mem_cons_of_mem, hq]) hp hpq
        subst hqp
        exact ⟨Nat.le_refl _, fun h2 => h2⟩
      · have hqp : q = p :=
          inj (by simp [allProcs, hq]) hp hpq
        subst hqp
        exact ⟨Nat.le_refl _, fun h2 => h2⟩
      · subst hq
        have hpa : p = a :=
          inj hp (by simp [allProcs]) (by exact hpq.symm)
        subst hpa
        rw [hlv]
        refine ⟨?_, ?_⟩
        · dsimp only
          omega
        · exact fun h2 => absurd h2 (by decide)
      · have hqp : q = p :=
          inj (by simp [allProcs, hq]) hp hpq
        subst hqp
        exact ⟨Nat.le_refl _, fun h2 => h2⟩

/-- C4 witness: the level of the concrete process (demoted from 0 to 1
on the first tick of a concrete run) does not decrease. -/
theorem C4_monotone_level_witness :
    (new_proc 1 "spin" 30).level ≤
        (Proc.mk 1 "spin" 20 2 1).level ∧
      ((new_proc 1 "spin" 30).level = 2 → (Proc.mk 1 "spin" 20 2 1).level = 2) :=
  @C4_monotone_level (initState "spin 30") (Reachable.init "spin 30")
    (new_proc 1 "spin" 30) (Proc.mk 1 "spin" 20 2 1) (by decide) (by decide) (by decide)

/-- C2: a dispatched process that does not exit on this tick is
requeued as the claim states: with quantum remaining it goes to the
tail of its own level's queue, level unchanged, other queues untouched;
with quantum exhausted below the last level it is demoted one level
with that level's fresh quantum and appended to that queue's tail;
with quantum exhausted at the last level it stays at level 2 with a
fresh level 2 quantum, appended at the tail.  (`qid` is the queue it
was popped from, which always equals its level.) -/
theorem C2_requeue_demotion {st : SimState} (h : Reachable st) {qid : Nat}
    {p : Proc} {rest : List Proc} (hsel : selQ st = some (qid, p, rest))
    (hw : 0 < p.work_left - TICK_MS) :
    qid = p.level ∧
    (0 < p.ticks_left - 1 →
      ∃ p1, p1.level = p.level ∧ p1.pid = p.pid ∧
        p1.ticks_left = p.ticks_left - 1 ∧
        getQ (schedule_one_tick st) p.level = rest ++ [p1] ∧
        ∀ k, k ≤ 2 → k ≠ p.level → getQ (schedule_one_tick st) k = getQ st k) ∧
    (p.ticks_left - 1 = 0 → p.level < 2 →
      ∃ p1, p1.level = p.level + 1 ∧ p1.pid = p.pid ∧
        p1.ticks_left = levelQuantum (p.level + 1) ∧
        getQ (schedule_one_tick st) (p.level + 1) = getQ st (p.level + 1) ++ [p1] ∧
        getQ (schedule_one_tick st) p.level = rest) ∧
    (p.ticks_left - 1 = 0 → p.level = 2 →
      ∃ p1, p1.level = 2 ∧ p1.pid = p.pid ∧ p1.ticks_left = levelQuantum 2 ∧
        getQ (schedule_one_tick st) 2 = rest ++ [p1]) := by
  obtain ⟨h0, h1, h2, hnd⟩ := reachable_inv h
  obtain ⟨s0, s1, s2, tr⟩ := st
  rcases selQ_spec hsel with ⟨rfl, hq0⟩ | ⟨rfl, hq0, hq1⟩ | ⟨rfl, hq0, hq1, hq2⟩
  · dsimp only at hq0; subst hq0
    obtain ⟨hlv, hwp, ht1, ht2⟩ := h0 p (List.mem_cons_self p rest)
    rw [levelQuantum_zero] at ht2
    refine ⟨hlv.symm, ?_, ?_, ?_⟩
    · intro ht
      exact absurd ht (by omega)
    · intro ht _
      have heq := step_demote hsel (by omega) (by omega) (by omega) (by omega)
      rw [hlv]
      refine ⟨{ runProc p with level := 1, ticks_left := levelQuantum 1 },
        rfl, rfl, rfl, ?_, ?_⟩
      · rw [heq]; rfl
      · rw [heq]; rfl
    · intro _ hl2
      rw [hlv] at hl2
      exact absurd hl2 (by decide)
  · dsimp only at hq0 hq1; subst hq0; subst hq1
    obtain ⟨hlv, hwp, ht1, ht2⟩ := h1 p (List.mem_cons_self p rest)
    rw [levelQuantum_one] at ht2
    refine ⟨hlv.symm, ?_, ?_, ?_⟩
    · intro ht
      have heq := step_rr hsel (by omega) (by omega) ht
      rw [hlv]
      refine ⟨runProc p, hlv, rfl, rfl, ?_, ?_⟩
      · rw [heq]; rfl
      · intro k hk hkne
        rcases k with _ | _ | _ | k
        · rw [heq]; rfl
        · exact absurd rfl hkne
        · rw [heq]; rfl
        · exact absurd hk (by omega)
    · intro ht _
      have heq := step_demote hsel (by omega) (by omega) (by omega) (by omega)
      rw [hlv]
      refine ⟨{ runProc p with level := 2, ticks_left := levelQuantum 2 },
        rfl, rfl, rfl, ?_, ?_⟩
      · rw [heq]; rfl
      · rw [heq]; rfl
    · intro _ hl2
      rw [hlv] at hl2
      exact absurd hl2 (by decide)
  · dsimp only at hq0 hq1 hq2; subst hq0; subst hq1; subst hq2
    obtain ⟨hlv, hwp, ht1, ht2⟩ := h2 p (List.mem_cons_self p rest)
    rw [levelQuantum_two] at ht2
    refine ⟨hlv.symm, ?_, ?_, ?_⟩
    · intro ht
      have heq := step_rr hsel (by omega) (by omega) ht
      rw [hlv]
      refine ⟨runProc p, hlv, rfl, rfl, ?_, ?_⟩
      · rw [heq]; rfl
      · intro k hk hkne
        rcases k with _ | _ | _ | k
        · rw [heq]; rfl
        · rw [heq]; rfl
        · exact absurd rfl hkne
        · exact absurd hk (by omega)
    · intro _ hl2
      rw [hlv] at hl2
      exact absurd hl2 (by decide)
    · intro ht _
      have heq := step_refresh hsel (by omega) (by omega) (by omega)
      refine ⟨{ runProc p with ticks_left := Q_L2 }, hlv, rfl, rfl, ?_⟩
      rw [heq]; rfl

/-- C2 witness: on the concrete first tick of `spin 30` the dispatch
queue id equals the process's level. -/
theorem C2_requeue_demotion_witness :
    0 = (new_proc 1 "spin" 30).level :=
  (@C2_requeue_demotion (initState "spin 30") (Reachable.init "spin 30") 0
    (new_proc 1 "spin" 30) [] (by decide) (by decide)).1

theorem step_exit0 {st : SimState} {p : Proc} {rest : List Proc}
    (hsel : selQ st = some (0, p, rest)) (hne : p.ticks_left ≠ 0)
    (hw : p.work_left - TICK_MS ≤ 0) :
    schedule_one_tick st =
      { st with
        L0 := rest
        trace := st.trace ++
          [Event.run p.name p.pid p.level, Event.exited p.name p.pid] } :=
  step_exit hsel hne hw

theorem step_exit1 {st : SimState} {p : Proc} {rest : List Proc}
    (hsel : selQ st = some (1, p, rest)) (hne : p.ticks_left ≠ 0)
    (hw : p.work_left - TICK_MS ≤ 0) :
    schedule_one_tick st =
      { st with
        L1 := rest
        trace := st.trace ++
          [Event.run p.name p.pid p.level, Event.exited p.name p.pid] } :=
  step_exit hsel hne hw

theorem step_exit2 {st : SimState} {p : Proc} {rest : List Proc}
    (hsel : selQ st = some (2, p, rest)) (hne : p.ticks_left ≠ 0)
    (hw : p.work_left - TICK_MS ≤ 0) :
    schedule_one_tick st =
      { st with
        L2 := rest
        trace := st.trace ++
          [Event.run p.name p.pid p.level, Event.exited p.name p.pid] } :=
  step_exit hsel hne hw

theorem step_rr0 {st : SimState} {p : Proc} {rest : List Proc}
    (hsel : selQ st = some (0, p, rest)) (hne : p.ticks_left ≠ 0)
    (hw : ¬ p.work_left - TICK_MS ≤ 0) (ht : 0 < p.ticks_left - 1) :
    schedule_one_tick st =
      { st with
        L0 := rest ++ [runProc p]
        trace := st.trace ++ [Event.run p.name p.pid p.level] } :=
  step_rr hsel hne hw ht

theorem step_rr1 {st : SimState} {p : Proc} {rest : List Proc}
    (hsel : selQ st = some (1, p, rest)) (hne : p.ticks_left ≠ 0)
    (hw : ¬ p.work_left - TICK_MS ≤ 0) (ht : 0 < p.ticks_left - 1) :
    schedule_one_tick st =
      { st with
        L1 := rest ++ [runProc p]
        trace := st.trace ++ [Event.run p.name p.pid p.level] } :=
  step_rr hsel hne hw ht

theorem step_rr2 {st : SimState} {p : Proc} {rest : List Proc}
    (hsel : selQ st = some (2, p, rest)) (hne : p.ticks_left ≠ 0)
    (hw : ¬ p.work_left - TICK_MS ≤ 0) (ht : 0 < p.ticks_left - 1) :
    schedule_one_tick st =
      { st with
        L2 := rest ++ [runProc p]
        trace := st.trace ++ [Event.run p.name p.pid p.level] } :=
  step_rr hsel hne hw ht

theorem step_demote0 {st : SimState} {p : Proc} {rest : List Proc}
    (hsel : selQ st = some (0, p, rest)) (hne : p.ticks_left ≠ 0)
    (hw : ¬ p.work_left - TICK_MS ≤ 0) (ht : ¬ 0 < p.ticks_left - 1) :
    schedule_one_tick st =
      { st with
        L0 := rest
        L1 := st.L1 ++ [{ runProc p with level := 1, ticks_left := Q_L1 }]
        trace := st.trace ++ [Event.run p.name p.pid p.level] } :=
  step_demote hsel hne hw ht (by omega)

theorem step_demote1 {st : SimState} {p : Proc} {rest : List Proc}
    (hsel : selQ st = some (1, p, rest)) (hne : p.ticks_left ≠ 0)
    (hw : ¬ p.work_left - TICK_MS ≤ 0) (ht : ¬ 0 < p.ticks_left - 1) :
    schedule_one_tick st =
      { st with
        L1 := rest
        L2 := st.L2 ++ [{ runProc p with level := 2, ticks_left := Q_L2 }]
        trace := st.trace ++ [Event.run p.name p.pid p.level] } :=
  step_demote hsel hne hw ht (by omega)

theorem step_spec {st : SimState} {qid : Nat} {p : Proc} {rest : List Proc}
    (hinv : Inv st) (hsel : selQ st = some (qid, p, rest)) :
    ∃ (other : List Proc) (p1 : Proc),
      (∀ q, q ∈ allProcs st ↔ q = p ∨ q ∈ other) ∧
      p.pid ∉ other.map Proc.pid ∧
      p1.pid = p.pid ∧ p1.work_left = p.work_left - TICK_MS ∧
      ((p.work_left - TICK_MS ≤ 0 ∧
          (∀ q, q ∈ allProcs (schedule_one_tick st) ↔ q ∈ other) ∧
          (schedule_one_tick st).trace = st.trace ++
            [Event.run p.name p.pid p.level, Event.exited p.name p.pid]) ∨
       (0 < p.work_left - TICK_MS ∧
          (∀ q, q ∈ allProcs (schedule_one_tick st) ↔ q ∈ other ∨ q = p1) ∧
          (schedule_one_tick st).trace = st.trace ++
            [Event.run p.name p.pid p.level])) := by
  obtain ⟨h0, h1, h2, hnd⟩ := hinv
  obtain ⟨s0, s1, s2, tr⟩ := st
  simp only [allProcs, List.map_append, List.map_cons, List.map_nil, List.nil_append,
    List.cons_append, List.append_nil] at hnd
  rcases selQ_spec hsel with ⟨rfl, hq0⟩ | ⟨rfl, hq0, hq1⟩ | ⟨rfl, hq0, hq1, hq2⟩
  · dsimp only at hq0; subst hq0
    obtain ⟨hlv, hwp, ht1, ht2⟩ := h0 p (List.mem_cons_self p rest)
    rw [levelQuantum_zero] at ht2
    rcases le_or_lt (p.work_left - TICK_MS) 0 with hwc | hwc
    · refine ⟨rest ++ s1 ++ s2, runProc p, ?_, ?_, rfl, rfl, Or.inl ⟨hwc, ?_, ?_⟩⟩
      · intro q
        simp only [allProcs, List.mem_append, List.mem_cons]
        tauto
      · simpa using (List.nodup_cons.1 hnd).1
      · intro q
        rw [step_exit0 hsel (by omega) hwc]
        simp only [allProcs, List.mem_append, List.mem_cons, List.mem_singleton,
          List.nil_append, List.mem_nil_iff]
        try tauto
      · rw [step_exit0 hsel (by omega) hwc]
    · have ht : ¬ 0 < p.ticks_left - 1 := by omega
      refine ⟨rest ++ s1 ++ s2,
        { runProc p with level := 1, ticks_left := Q_L1 },
        ?_, ?_, rfl, rfl, Or.inr ⟨hwc, ?_, ?_⟩⟩
      · intro q
        simp only [allProcs, List.mem_append, List.mem_cons]
        tauto
      · simpa using (List.nodup_cons.1 hnd).1
      · intro q
        rw [step_demote0 hsel (by omega) (by omega) ht]
        simp only [allProcs, List.mem_append, List.mem_cons, List.mem_singleton,
          List.nil_append, List.mem_nil_iff]
        try tauto
      · rw [step_demote0 hsel (by omega) (by omega) ht]
  · dsimp only at hq0 hq1; subst hq0; subst hq1
    obtain ⟨hlv, hwp, ht1, ht2⟩ := h1 p (List.mem_cons_self p rest)
    rw [levelQuantum_one] at ht2
    rcases le_or_lt (p.work_left - TICK_MS) 0 with hwc | hwc
    · refine ⟨rest ++ s2, runProc p, ?_, ?_, rfl, rfl, Or.inl ⟨hwc, ?_, ?_⟩⟩
      · intro q
        simp only [allProcs, List.mem_append, List.mem_cons, List.nil_append]
        tauto
      · simpa using (List.nodup_cons.1 hnd).1
      · intro q
        rw [step_exit1 hsel (by omega) hwc]
        simp only [allProcs, List.mem_append, List.mem_cons, List.mem_singleton,
          List.nil_append, List.mem_nil_iff]
        try tauto
      · rw [step_exit1 hsel (by omega) hwc]
    · rcases lt_or_le 0 (p.ticks_left - 1) with ht | ht
      · refine ⟨rest ++ s2, runProc p, ?_, ?_, rfl, rfl, Or.inr ⟨hwc, ?_, ?_⟩⟩
        · intro q
          simp only [allProcs, List.mem_append, List.mem_cons, List.nil_append]
          tauto
        · simpa using (List.nodup_cons.1 hnd).1
        · intro q
          rw [step_rr1 hsel (by omega) (by omega) ht]
          simp only [allProcs, List.mem_append, List.mem_cons, List.mem_singleton,
            List.nil_append, List.mem_nil_iff]
          try tauto
        · rw [step_rr1 hsel (by omega) (by omega) ht]
      · refine ⟨rest ++ s2,
          { runProc p with level := 2, ticks_left := Q_L2 },
          ?_, ?_, rfl, rfl, Or.inr ⟨hwc, ?_, ?_⟩⟩
        · intro q
          simp only [allProcs, List.mem_append, List.mem_cons, List.nil_append]
          tauto
        · simpa using (List.nodup_cons.1 hnd).1
        · intro q
          rw [step_demote1 hsel (by omega) (by omega) (by omega)]
          simp only [allProcs, List.mem_append, List.mem_cons, List.mem_singleton,
            List.nil_append, List.mem_nil_iff]
          try tauto
        · rw [step_demote1 hsel (by omega) (by omega) (by omega)]
  · dsimp only at hq0 hq1 hq2; subst hq0; subst hq1; subst hq2
    obtain ⟨hlv, hwp, ht1, ht2⟩ := h2 p (List.mem_cons_self p rest)
    rw [levelQuantum_two] at ht2
    rcases le_or_lt (p.work_left - TICK_MS) 0 with hwc | hwc
    · refine ⟨rest, runProc p, ?_, ?_, rfl, rfl, Or.inl ⟨hwc, ?_, ?_⟩⟩
      · intro q
        simp only [allProcs, List.mem_cons, List.nil_append]
        try tauto
      · simpa using (List.nodup_cons.1 hnd).1
      · intro q
        rw [step_exit2 hsel (by omega) hwc]
        simp only [allProcs, List.mem_append, List.mem_cons, List.mem_singleton,
          List.nil_append, List.mem_nil_iff]
        try tauto
      · rw [step_exit2 hsel (by omega) hwc]
    · rcases lt_or_le 0 (p.ticks_left - 1) with ht | ht
      · refine ⟨rest, runProc p, ?_, ?_, rfl, rfl, Or.inr ⟨hwc, ?_, ?_⟩⟩
        · intro q
          simp only [allProcs, List.mem_cons, List.nil_append]
          try tauto
        · simpa using (List.nodup_cons.1 hnd).1
        · intro q
          rw [step_rr2 hsel (by omega) (by omega) ht]
          simp only [allProcs, List.mem_append, List.mem_cons, List.mem_singleton,
            List.nil_append, List.mem_nil_iff]
          try tauto
        · rw [step_rr2 hsel (by omega) (by omega) ht]
      · refine ⟨rest, { runProc p with ticks_left := Q_L2 },
          ?_, ?_, rfl, rfl, Or.inr ⟨hwc, ?_, ?_⟩⟩
        · intro q
          simp only [allProcs, List.mem_cons, List.nil_append]
          try tauto
        · simpa using (List.nodup_cons.1 hnd).1
        · intro q
          rw [step_refresh hsel (by omega) (by omega) (by omega)]
          simp only [allProcs, List.mem_append, List.mem_cons, List.mem_singleton,
            List.nil_append, List.mem_nil_iff]
          try tauto
        · rw [step_refresh hsel (by omega) (by omega) (by omega)]

/-- C3: work conservation and exit priority over one tick.  When a
process `p` is dispatched: any surviving process with `p`'s pid has
work `p.work_left - TICK_MS` (decrease by exactly one tick's worth);
every other process is preserved identically (work decreases by 0);
if the decrement drives the work to ≤ 0 the tick emits the run line
followed immediately by the exit line and `p` is removed from all
queues (exit wins over requeue/demotion); otherwise no exit line is
emitted and `p` is still live.  Moreover a pid absent from the state
stays absent and receives no further trace lines — so a process
exits at most once and is never mentioned again. -/
theorem C3_work_conservation {st : SimState} (h : Reachable st) :
    (∀ qid p rest, selQ st = some (qid, p, rest) →
      (∀ q ∈ allProcs (schedule_one_tick st), q.pid = p.pid →
        q.work_left = p.work_left - TICK_MS) ∧
      (∀ q ∈ allProcs st, q.pid ≠ p.pid → q ∈ allProcs (schedule_one_tick st)) ∧
      (p.work_left - TICK_MS ≤ 0 →
        (schedule_one_tick st).trace = st.trace ++
          [Event.run p.name p.pid p.level, Event.exited p.name p.pid] ∧
        ∀ q ∈ allProcs (schedule_one_tick st), q.pid ≠ p.pid) ∧
      (0 < p.work_left - TICK_MS →
        (schedule_one_tick st).trace = st.trace ++
          [Event.run p.name p.pid p.level] ∧
        ∃ q ∈ allProcs (schedule_one_tick st), q.pid = p.pid)) ∧
    (∀ i, (∀ q ∈ allProcs st, q.pid ≠ i) →
      (∀ q ∈ allProcs (schedule_one_tick st), q.pid ≠ i) ∧
      (∀ e ∈ (schedule_one_tick st).trace.drop st.trace.length,
        eventPid e ≠ some i)) := by
  have hinv := reachable_inv h
  constructor
  · intro qid p rest hsel
    obtain ⟨other, p1, hmem, hpnot, hpid1, hwork1, hbr⟩ := step_spec hinv hsel
    refine ⟨?_, ?_, ?_, ?_⟩
    · intro q hq hqp
      rcases hbr with ⟨hwc, hiff, htr⟩ | ⟨hwc, hiff, htr⟩
      · exfalso
        have hqo : q ∈ other := (hiff q).1 hq
        refine hpnot ?_
        rw [← hqp]
        exact List.mem_map_of_mem Proc.pid hqo
      · rcases (hiff q).1 hq with hqo | rfl
        · exfalso
          refine hpnot ?_
          rw [← hqp]
          exact List.mem_map_of_mem Proc.pid hqo
        · exact hwork1
    · intro q hq hqp
      rcases (hmem q).1 hq with rfl | hqo
      · exact absurd rfl hqp
      · rcases hbr with ⟨_, hiff, _⟩ | ⟨_, hiff, _⟩
        · exact (hiff q).2 hqo
        · exact (hiff q).2 (Or.inl hqo)
    · intro hwc
      rcases hbr with ⟨_, hiff, htr⟩ | ⟨hwc2, _, _⟩
      · refine ⟨htr, ?_⟩
        intro q hq hqp
        refine hpnot ?_
        rw [← hqp]
        exact List.mem_map_of_mem Proc.pid ((hiff q).1 hq)
      · exact absurd hwc (by omega)
    · intro hwc
      rcases hbr with ⟨hwc2, _, _⟩ | ⟨_, hiff, htr⟩
      · exact absurd hwc (by omega)
      · exact ⟨htr, p1, (hiff p1).2 (Or.inr rfl), hpid1⟩
  · intro i hni
    rcases hselc : selQ st with _ | ⟨⟨qid, p, rest⟩⟩
    · rw [step_idle hselc]
      refine ⟨fun q hq => hni q hq, ?_⟩
      intro e he
      have he2 : e ∈ [Event.idle] := by
        have : (emitIdle st).trace = st.trace ++ [Event.idle] := rfl
        rw [this, List.drop_left] at he
        exact he
      rcases List.mem_singleton.1 he2 with rfl
      simp [eventPid]
    · obtain ⟨other, p1, hmem, hpnot, hpid1, hwork1, hbr⟩ := step_spec hinv hselc
      have hp_in : p ∈ allProcs st := (hmem p).2 (Or.inl rfl)
      have hpi : p.pid ≠ i := hni p hp_in
      constructor
      · intro q hq
        rcases hbr with ⟨_, hiff, _⟩ | ⟨_, hiff, _⟩
        · exact hni q ((hmem q).2 (Or.inr ((hiff q).1 hq)))
        · rcases (hiff q).1 hq with hqo | rfl
          · exact hni q ((hmem q).2 (Or.inr hqo))
          · rw [hpid1]
            exact hpi
      · intro e he
        rcases hbr with ⟨_, _, htr⟩ | ⟨_, _, htr⟩
        · rw [htr, List.drop_left] at he
          rcases List.mem_cons.1 he with rfl | he2
          · simpa [eventPid] using hpi
          · rcases List.mem_singleton.1 he2 with rfl
            simpa [eventPid] using hpi
        · rw [htr, List.drop_left] at he
          rcases List.mem_singleton.1 he with rfl
          simpa [eventPid] using hpi

/-- C3 witness: on the concrete one-tick run of `spin 10`, the tick
emits the run line followed by the exit line. -/
theorem C3_work_conservation_witness :
    (schedule_one_tick (initState "spin 10")).trace =
      (initState "spin 10").trace ++
        [Event.run (new_proc 1 "spin" 10).name (new_proc 1 "spin" 10).pid
            (new_proc 1 "spin" 10).level,
          Event.exited (new_proc 1 "spin" 10).name (new_proc 1 "spin" 10).pid] :=
  (((C3_work_conservation (Reachable.init "spin 10")).1 0
      (new_proc 1 "spin" 10) [] (by decide)).2.2.1 (by decide)).1

/-- C7: the tick-driver loop terminates on every workload: whenever the
fuel exceeds the number of remaining iterations the loop returns a
result (it never actually exhausts its fuel), the final counters
satisfy the stop condition — consecutive-idle counter above the fixed
threshold 10 or total-tick counter above the fixed hard cap 100000 —
and the final tick count never exceeds 100001.  Idle iterations
increment the tick counter exactly like active ones (both recursive
branches pass `ticks + 1`).  The thresholds are the literals 10 and
100000 in `runGo`, independent of the input.  In particular the whole
program `simulate cmd` produces a result for every command string. -/
theorem C7_termination :
    (∀ fuel idle ticks st, ticks ≤ 100001 → 100001 < fuel + ticks →
      ∃ r, runGo fuel idle ticks st = some r ∧
        (10 < r.1 ∨ 100000 < r.2.1) ∧ r.2.1 ≤ 100001) ∧
    (∀ cmd, ∃ r, simulate cmd = some r) := by
  have main : ∀ fuel idle ticks st, ticks ≤ 100001 → 100001 < fuel + ticks →
      ∃ r, runGo fuel idle ticks st = some r ∧
        (10 < r.1 ∨ 100000 < r.2.1) ∧ r.2.1 ≤ 100001 := by
    intro fuel
    induction fuel with
    | zero =>
      intro idle ticks st hle hf
      exact absurd hf (by omega)
    | succ n ih =>
      intro idle ticks st hle hf
      rw [runGo]
      split_ifs with hcap hempty hidle
      · exact ⟨(idle, ticks, st), rfl, Or.inr hcap, hle⟩
      · exact ⟨(idle + 1, ticks + 1, st), rfl, Or.inl hidle, by dsimp only; omega⟩
      · exact ih (idle + 1) (ticks + 1) (emitIdle st) (by omega) (by omega)
      · exact ih 0 (ticks + 1) (schedule_one_tick st) (by omega) (by omega)
  refine ⟨main, fun cmd => ?_⟩
  obtain ⟨r, hr, _, _⟩ := main 100002 0 0 (initState cmd) (by omega) (by omega)
  exact ⟨r, hr⟩

/-- C7 witness: the loop terminates within the bounds on the empty
workload. -/
theorem C7_termination_witness :
    ∃ r, runGo 100002 0 0 (SimState.mk [] [] [] []) = some r ∧
      (10 < r.1 ∨ 100000 < r.2.1) ∧ r.2.1 ≤ 100001 :=
  C7_termination.1 100002 0 0 (SimState.mk [] [] [] []) (by omega) (by omega)

/-- C8 counterexample: the claim says every loop iteration that sees
all queues empty emits one idle line and increments the idle counter,
which forces the emitted-idle-line count to equal the final counter
value.  On the concrete empty workload the code performs 11
empty-queue iterations (final counter 11) but emits only 10 idle
lines: the iteration that trips the `idle > 10` quiescence test
increments the counter and breaks before printing. -/
theorem C8_idle_emission_cex :
    runGo 12 0 0 (initState "") =
      some (11, 11, SimState.mk [] [] [] (List.replicate 10 Event.idle)) ∧
    countIdle (List.replicate 10 Event.idle) = 10 ∧ (11 : Nat) ≠ 10 :=
  ⟨by decide, by decide, by decide⟩

/-- C8 (amended): the idle line has the exact claimed form; an
empty-queue iteration whose incremented idle counter stays within the
threshold emits exactly one idle line and increments the counter,
while the iteration whose incremented counter exceeds the threshold
increments it and terminates without emitting; a non-empty iteration
resets the counter to zero and invokes the dispatch algorithm exactly
once; and on empty or unparseable input the driver emits exactly 10
idle lines and no process-related output at all. -/
theorem C8_idle_amended :
    renderEvent Event.idle = "Process idle 0 has consumed 10 ms in IDLE" ∧
    (∀ fuel idle ticks st, ¬ 100000 < ticks →
      (st.L0 = [] ∧ st.L1 = [] ∧ st.L2 = [] →
        (idle + 1 ≤ 10 →
          runGo (fuel + 1) idle ticks st =
            runGo fuel (idle + 1) (ticks + 1) (emitIdle st)) ∧
        (10 < idle + 1 →
          runGo (fuel + 1) idle ticks st = some (idle + 1, ticks + 1, st))) ∧
      (¬ (st.L0 = [] ∧ st.L1 = [] ∧ st.L2 = []) →
        runGo (fuel + 1) idle ticks st =
          runGo fuel 0 (ticks + 1) (schedule_one_tick st))) ∧
    simulate "" =
      some (11, 11, SimState.mk [] [] [] (List.replicate 10 Event.idle)) ∧
    simulate "not a parsable command" =
      some (11, 11, SimState.mk [] [] [] (List.replicate 10 Event.idle)) := by
  refine ⟨rfl, ?_, by decide, by decide⟩
  intro fuel idle ticks st hcap
  constructor
  · intro hempty
    constructor
    · intro hle
      rw [runGo, if_neg hcap, if_pos hempty, if_neg (by omega)]
    · intro hgt
      rw [runGo, if_neg hcap, if_pos hempty, if_pos hgt]
  · intro hne
    rw [runGo, if_neg hcap, if_neg hne]

/-- C8 witness: the first empty-queue iteration of the empty workload
emits an idle line and recurses with the counter incremented. -/
theorem C8_idle_amended_witness :
    runGo 1 0 0 (SimState.mk [] [] [] []) =
      runGo 0 1 1 (emitIdle (SimState.mk [] [] [] [])) :=
  ((C8_idle_amended.2.1 0 0 0 (SimState.mk [] [] [] []) (by decide)).1
    ⟨rfl, rfl, rfl⟩).1 (by decide)

/-- C9 counterexample: the input `"spin 10 spin 20"` contains two
occurrences of `spin` + whitespace + positive integer, so the claim
predicts two processes with works 10 and 20; the code creates only
one (after parsing a number it discards everything up to the next
`;`, and there is none), with work 10. -/
theorem C9_loader_cex :
    parseSpin "spin 10 spin 20".data = [10] ∧
    claimOccurrences "spin 10 spin 20".data = [10, 20] ∧
    ([10] : List Nat) ≠ [10, 20] :=
  ⟨by decide, by decide, by decide⟩

theorem takeWhile_append_stop {p : Char → Bool} {b : List Char} (a : List Char)
    (hb : ∀ c, b.head? = some c → p c = false) :
    (a ++ b).takeWhile p = a.takeWhile p := by
  induction a with
  | nil =>
    cases b with
    | nil => rfl
    | cons c r => simp [List.takeWhile_cons, hb c rfl]
  | cons x a ih =>
    by_cases hx : p x
    · simp [List.takeWhile_cons, hx, ih]
    · simp [List.takeWhile_cons, hx]

theorem dropWhile_append_stop {p : Char → Bool} {b : List Char} (a : List Char)
    (hb : ∀ c, b.head? = some c → p c = false) :
    (a ++ b).dropWhile p = a.dropWhile p ++ b := by
  induction a with
  | nil =>
    cases b with
    | nil => rfl
    | cons c r => simp [List.dropWhile_cons, hb c rfl]
  | cons x a ih =>
    by_cases hx : p x
    · simp [List.dropWhile_cons, hx, ih]
    · simp [List.dropWhile_cons, hx]

theorem dropWhile_head_false {p : Char → Bool} :
    ∀ (s : List Char) {c : Char} {t : List Char}, s.dropWhile p = c :: t → p c = false := by
  intro s
  induction s with
  | nil => intro c t h; cases h
  | cons x xs ih =>
    intro c t h
    rw [List.dropWhile_cons] at h
    split_ifs at h with hx
    · exact ih h
    · injection h with h1 h2
      subst h1
      simpa using hx

theorem splitOnSemi_ne_nil (s : List Char) : splitOnSemi s ≠ [] := by
  induction s with
  | nil => simp [splitOnSemi]
  | cons c t ih =>
    rw [splitOnSemi]
    split_ifs with hc
    · simp
    · rcases h : splitOnSemi t with _ | ⟨seg, rest⟩
      · exact absurd h ih
      · show (c :: seg) :: rest ≠ []
        simp

theorem splitOnSemi_decomp (s : List Char) :
    splitOnSemi s = s.takeWhile (fun c => c != ';') ::
      (match s.dropWhile (fun c => c != ';') with
       | [] => []
       | _ :: r => splitOnSemi r) := by
  induction s with
  | nil => rfl
  | cons c t ih =>
    by_cases hc : c = ';'
    · subst hc
      rw [splitOnSemi, if_pos rfl]
      have h1 : (';' :: t).takeWhile (fun c => c != ';') = [] := by
        simp [List.takeWhile_cons]
      have h2 : (';' :: t).dropWhile (fun c => c != ';') = ';' :: t := by
        simp [List.dropWhile_cons]
      rw [h1, h2]
    · rw [splitOnSemi, if_neg hc]
      have h1 : (c :: t).takeWhile (fun c => c != ';') =
          c :: t.takeWhile (fun c => c != ';') := by
        simp [List.takeWhile_cons, hc]
      have h2 : (c :: t).dropWhile (fun c => c != ';') =
          t.dropWhile (fun c => c != ';') := by
        simp [List.dropWhile_cons, hc]
      rw [h1, h2, ih]

theorem segSpin_nil : segSpin [] = [] := rfl

theorem segSpin_cons_sep {c : Char} (hc : isSep c) (seg : List Char) :
    segSpin (c :: seg) = segSpin seg := by
  simp only [segSpin, List.dropWhile_cons_of_pos hc]

theorem segJoin_dropSeps (s : List Char) :
    ((splitOnSemi s).map segSpin).flatten =
      ((splitOnSemi (s.dropWhile isSep)).map segSpin).flatten := by
  induction s with
  | nil => rfl
  | cons c t ih =>
    by_cases hc : isSep c
    · have key : ((splitOnSemi (c :: t)).map segSpin).flatten =
          ((splitOnSemi t).map segSpin).flatten := by
        by_cases hsemi : c = ';'
        · subst hsemi
          rw [splitOnSemi, if_pos rfl]
          simp [segSpin_nil]
        · rw [splitOnSemi, if_neg hsemi]
          rcases h : splitOnSemi t with _ | ⟨seg, rest⟩
          · exact absurd h (splitOnSemi_ne_nil t)
          · show (((c :: seg) :: rest).map segSpin).flatten =
              ((seg :: rest).map segSpin).flatten
            simp only [List.map_cons, List.flatten_cons, segSpin_cons_sep hc]
      rw [List.dropWhile_cons_of_pos hc, key, ih]
    · rw [List.dropWhile_cons_of_neg hc]

theorem segJoin_decomp (s1 : List Char) :
    ((splitOnSemi s1).map segSpin).flatten =
      segSpin (s1.takeWhile (fun c => c != ';')) ++
        (match s1.dropWhile (fun c => c != ';') with
         | [] => []
         | _ :: r => ((splitOnSemi r).map segSpin).flatten) := by
  rw [splitOnSemi_decomp s1]
  cases h : s1.dropWhile (fun c => c != ';') with
  | nil => simp [h]
  | cons x r => simp [h]

theorem spinGo_nil (fuel : Nat) : spinGo fuel [] = [] := by
  cases fuel <;> rfl

theorem spinGo_succ_nil (n : Nat) {s : List Char} (h : s.dropWhile isSep = []) :
    spinGo (n + 1) s = [] := by
  simp [spinGo, h]

theorem spinGo_succ_spin (n : Nat) {s s1 : List Char} (h : s.dropWhile isSep = s1)
    (hnil : s1 ≠ []) (hspin : s1.take 4 = ['s', 'p', 'i', 'n']) :
    spinGo (n + 1) s =
      (if 0 < digitsVal ((s1.drop 4).dropWhile isBlank) then
        digitsVal ((s1.drop 4).dropWhile isBlank) ::
          spinGo n (dropToSemi (((s1.drop 4).dropWhile isBlank).dropWhile isDigitCh))
      else
        spinGo n (dropToSemi (((s1.drop 4).dropWhile isBlank).dropWhile isDigitCh))) := by
  rw [spinGo]
  simp only [h, if_neg hnil, if_pos hspin]

theorem spinGo_succ_other (n : Nat) {s s1 : List Char} (h : s.dropWhile isSep = s1)
    (hnil : s1 ≠ []) (hspin : ¬ s1.take 4 = ['s', 'p', 'i', 'n']) :
    spinGo (n + 1) s = spinGo n (dropToSemi s1) := by
  rw [spinGo]
  simp only [h, if_neg hnil, if_neg hspin]

theorem mem_takeWhile_pred {p : Char → Bool} :
    ∀ (l : List Char) (x : Char), x ∈ l.takeWhile p → p x = true := by
  intro l
  induction l with
  | nil => intro x hx; simp [List.takeWhile] at hx
  | cons a l ih =>
    intro x hx
    rw [List.takeWhile_cons] at hx
    split_ifs at hx with ha
    · rcases List.mem_cons.1 hx with rfl | hx2
      · exact ha
      · exact ih x hx2
    · simp at hx

theorem spinGo_segments :
    ∀ (fuel : Nat) (s : List Char), s.length < fuel →
      spinGo fuel s = ((splitOnSemi s).map segSpin).flatten := by
  intro fuel
  induction fuel with
  | zero => intro s h; exact absurd h (by omega)
  | succ n ih =>
    intro s hlen
    rw [segJoin_dropSeps s]
    rcases h1 : s.dropWhile isSep with _ | ⟨c, t⟩
    · rw [spinGo_succ_nil n h1]
      rfl
    · have hcsep : isSep c = false := dropWhile_head_false s h1
      have hcsemi : c ≠ ';' := fun hcc => by
        rw [hcc] at hcsep
        exact absurd hcsep (by decide)
      have hs1len : (c :: t).length ≤ s.length := by
        rw [← h1]
        exact (List.dropWhile_sublist isSep).length_le
      obtain ⟨seg, hseg⟩ : ∃ g, (c :: t).takeWhile (fun x => x != ';') = g := ⟨_, rfl⟩
      obtain ⟨rem, hrem⟩ : ∃ g, (c :: t).dropWhile (fun x => x != ';') = g := ⟨_, rfl⟩
      have hsplit : seg ++ rem = c :: t := by
        rw [← hseg, ← hrem]
        exact List.takeWhile_append_dropWhile _ (c :: t)
      have hsegsep : seg.dropWhile isSep = seg := by
        rw [← hseg, List.takeWhile_cons_of_pos (by simp [hcsemi])]
        exact List.dropWhile_cons_of_neg (by simp [hcsep])
      have hsegmem : ∀ x ∈ seg, (x != ';') = true := by
        intro x hx
        rw [← hseg] at hx
        exact mem_takeWhile_pred _ x hx
      have hddmem : ∀ y ∈ ((seg.drop 4).dropWhile isBlank).dropWhile isDigitCh,
          (y != ';') = true := by
        intro y hy
        refine hsegmem y ?_
        have hsub :
            List.Sublist (((seg.drop 4).dropWhile isBlank).dropWhile isDigitCh) seg :=
          (List.dropWhile_sublist isDigitCh).trans
            ((List.dropWhile_sublist isBlank).trans (List.drop_sublist 4 seg))
        exact hsub.subset hy
      rw [segJoin_decomp (c :: t), hseg, hrem]
      by_cases hspin : (c :: t).take 4 = ['s', 'p', 'i', 'n']
      · rw [spinGo_succ_spin n h1 (List.cons_ne_nil c t) hspin]
        rcases rem with _ | ⟨x, r⟩
        · have hseg1 : seg = c :: t := by
            rw [← hsplit, List.append_nil]
          rw [← hseg1]
          have hdts :
              dropToSemi (((seg.drop 4).dropWhile isBlank).dropWhile isDigitCh) = [] := by
            unfold dropToSemi
            rw [List.dropWhile_eq_nil_iff.mpr hddmem]
          rw [hdts, spinGo_nil]
          have hsegSpin : segSpin seg =
              if 0 < digitsVal ((seg.drop 4).dropWhile isBlank) then
                [digitsVal ((seg.drop 4).dropWhile isBlank)] else [] := by
            rw [segSpin, hsegsep, if_pos (hseg1 ▸ hspin)]
          rw [hsegSpin, List.append_nil]
        · have hx : x = ';' := by
            have hxf := dropWhile_head_false (c :: t) hrem
            simpa using hxf
          subst hx
          have hstop : ∀ (p : Char → Bool), p ';' = false →
              ∀ cc, (';' :: r).head? = some cc → p cc = false := by
            intro p hp cc hcc
            have hcc2 : ';' = cc := by simpa using hcc
            rw [← hcc2]
            exact hp
          have hlen2 : seg.length + (r.length + 1) = (c :: t).length := by
            rw [← hsplit]
            simp
          have hseg4 : 4 ≤ seg.length := by
            by_contra hlt
            push_neg at hlt
            have hsegtake : seg.take 4 = seg := List.take_of_length_le (by omega)
            have he : (c :: t).take 4 = seg ++ (';' :: r).take (4 - seg.length) := by
              rw [← hsplit, List.take_append_eq_append_take, hsegtake]
            have hm : (';' : Char) ∈ (c :: t).take 4 := by
              rw [he]
              refine List.mem_append_right _ ?_
              obtain ⟨k, hk⟩ : ∃ k, 4 - seg.length = k + 1 := ⟨3 - seg.length, by omega⟩
              rw [hk]
              exact List.mem_cons_self _ _
            rw [hspin] at hm
            exact absurd hm (by decide)
          have hspinseg : seg.take 4 = ['s', 'p', 'i', 'n'] := by
            have he : (c :: t).take 4 = seg.take 4 := by
              rw [← hsplit]
              exact List.take_append_of_le_length hseg4
            rw [← he]
            exact hspin
          have hdrop : (c :: t).drop 4 = seg.drop 4 ++ ';' :: r := by
            rw [← hsplit]
            exact List.drop_append_of_le_length hseg4
          have hblank : ((c :: t).drop 4).dropWhile isBlank =
              ((seg.drop 4).dropWhile isBlank) ++ ';' :: r := by
            rw [hdrop]
            exact dropWhile_append_stop _ (hstop isBlank (by decide))
          have hdigits : digitsVal (((seg.drop 4).dropWhile isBlank) ++ ';' :: r) =
              digitsVal ((seg.drop 4).dropWhile isBlank) := by
            unfold digitsVal
            rw [takeWhile_append_stop _ (hstop isDigitCh (by decide))]
          have hdd : (((seg.drop 4).dropWhile isBlank) ++ ';' :: r).dropWhile isDigitCh =
              (((seg.drop 4).dropWhile isBlank).dropWhile isDigitCh) ++ ';' :: r :=
            dropWhile_append_stop _ (hstop isDigitCh (by decide))
          have hdts : dropToSemi
              ((((seg.drop 4).dropWhile isBlank).dropWhile isDigitCh) ++ ';' :: r) = r := by
            unfold dropToSemi
            rw [List.dropWhile_append_of_pos hddmem,
              List.dropWhile_cons_of_neg (by decide)]
          have hrlen : r.length < n := by omega
          have hsegSpin : segSpin seg =
              if 0 < digitsVal ((seg.drop 4).dropWhile isBlank) then
                [digitsVal ((seg.drop 4).dropWhile isBlank)] else [] := by
            rw [segSpin, hsegsep, if_pos hspinseg]
          rw [hblank, hdigits, hdd, hdts, ih r hrlen, hsegSpin]
          split_ifs <;> rfl
      · rw [spinGo_succ_other n h1 (List.cons_ne_nil c t) hspin]
        have hsegSpin : segSpin seg = [] := by
          rw [segSpin, hsegsep]
          rw [if_neg ?_]
          intro hc4
          refine hspin ?_
          have hseg4 : 4 ≤ seg.length := by
            have := congrArg List.length hc4
            simp [List.length_take] at this
            omega
          have he : (c :: t).take 4 = seg.take 4 := by
            rw [← hsplit]
            exact List.take_append_of_le_length hseg4
          rw [he, hc4]
        rcases rem with _ | ⟨x, r⟩
        · have hdts : dropToSemi (c :: t) = [] := by
            unfold dropToSemi
            rw [hrem]
          rw [hdts, spinGo_nil, hsegSpin]
          rfl
        · have hx : x = ';' := by
            have hxf := dropWhile_head_false (c :: t) hrem
            simpa using hxf
          subst hx
          have hdts : dropToSemi (c :: t) = r := by
            unfold dropToSemi
            rw [hrem]
          have hlen2 : seg.length + (r.length + 1) = (c :: t).length := by
            rw [← hsplit]
            simp
          have hrlen : r.length < n := by omega
          rw [hdts, ih r hrlen, hsegSpin]
          rfl

theorem userinit_map_work : ∀ (ws : List Nat) (n : Nat),
    (userinit ws n).map Proc.work_left = ws.map (fun ms => (ms : Int)) := by
  intro ws
  induction ws with
  | nil => intro n; rfl
  | cons m rest ih => intro n; simp [userinit, new_proc, ih]

theorem userinit_fields : ∀ (ws : List Nat) (n : Nat), ∀ p ∈ userinit ws n,
    p.name = "spin" ∧ p.level = 0 ∧ p.ticks_left = Q_L0 := by
  intro ws
  induction ws with
  | nil => intro n p hp; simp [userinit] at hp
  | cons m rest ih =>
    intro n p hp
    rcases List.mem_cons.1 hp with rfl | hp2
    · exact ⟨rfl, rfl, rfl⟩
    · exact ih (n + 1) p hp2

/-- C9 (amended): the Workload Loader creates at most one process per
`;`-delimited segment of the input: in each segment, after skipping
leading whitespace and `&` separators, the remaining text must begin
with the literal `spin`; the digits following optional (not required)
whitespace are read as a non-negative decimal integer, one process is
created iff that integer is positive, and all further text of the
segment — including any later `spin` tokens — is discarded.  The
processes are created in left-to-right segment order, each named
"spin", at level 0 with a fresh level 0 quantum, with the parsed
integer (in ms) as its initial work. -/
theorem C9_loader_amended :
    (∀ s : List Char, parseSpin s = ((splitOnSemi s).map segSpin).flatten) ∧
    (∀ cmd : String,
      (initState cmd).L0.map Proc.work_left =
        (parseSpin cmd.data).map (fun ms => (ms : Int)) ∧
      ∀ p ∈ (initState cmd).L0,
        p.name = "spin" ∧ p.level = 0 ∧ p.ticks_left = Q_L0) := by
  constructor
  · intro s
    exact spinGo_segments (s.length + 1) s (Nat.lt_succ_self _)
  · intro cmd
    exact ⟨userinit_map_work (parseSpin cmd.data) 1,
      userinit_fields (parseSpin cmd.data) 1⟩

/-- C9 witness: on a concrete two-segment input the loader result
agrees with the per-segment description, yielding works 10 and 20. -/
theorem C9_loader_amended_witness :
    ((splitOnSemi "spin 10 &; spin 20".data).map segSpin).flatten = [10, 20] ∧
    parseSpin "spin 10 &; spin 20".data =
      ((splitOnSemi "spin 10 &; spin 20".data).map segSpin).flatten :=
  ⟨by decide, C9_loader_amended.1 "spin 10 &; spin 20".data⟩

end MLFQ
